import Mathlib

/-!
Verification of the extraction / cleaning / sentiment pipeline
(`src/etl/extract_reddit.py`, `src/etl/transform_clean.py`,
`src/analysis/sentiment.py`).

The Python code is shallowly embedded: dict-shaped payloads become
inductive types carrying exactly the fields the code reads, network
responses become explicit values supplied by a `respond`/`getPage`
function indexed by request number, and the module's loops become
structurally recursive functions.  Machine text is modelled at the
level the code manipulates it: ASCII code points (the regexes in the
source are ASCII classes; the embedding models the ASCII fragment of
Python's `str` semantics).
-/

/- ===================== Comment tree flattener ======================
   Embeds `flatten_comments_tree` of src/etl/extract_reddit.py.
   A tree node is a tagged envelope `{"kind": ..., "data": {...}}`;
   the fields below are exactly those the function reads from `data`.
   The `replies` field of a node is either a dict holding
   `data.children` (constructor `listing`) or absent / not a dict
   (constructor `absent`) -- the code only distinguishes these two
   cases via `isinstance(replies, dict)`. -/

/-- Flat comment record appended by `flatten_comments_tree`. -/
structure CommentRec where
  post_id : String
  comment_id : Option String
  parent_id : Option String
  author : Option String
  body : Option String
  score : Option Int
  created_utc : Option Int
deriving DecidableEq, Repr

mutual

inductive RNode where
  | mk (kind : String) (id parent_id author body : Option String)
       (score created_utc : Option Int) (replies : RReplies)

inductive RReplies where
  | absent
  | listing (children : RNodeList)

inductive RNodeList where
  | nil
  | cons (head : RNode) (tail : RNodeList)

end

/-- The `kind` tag of a node ("t1" marks a comment). -/
def RNode.kind : RNode → String
  | .mk k _ _ _ _ _ _ _ => k

def RNodeList.toList : RNodeList → List RNode
  | .nil => []
  | .cons n t => n :: t.toList

def RNodeList.append : RNodeList → RNodeList → RNodeList
  | .nil, l => l
  | .cons n t, l => .cons n (t.append l)

def RNodeList.isNil : RNodeList → Bool
  | .nil => true
  | .cons _ _ => false

mutual

/-- The inner `_walk` of `flatten_comments_tree` over a `children` list:
for each node, skip it unless its kind is "t1"; otherwise append the
comment record and recurse into the replies listing before moving on
to the next sibling (depth-first pre-order). -/
def walkList (post_id : String) : RNodeList → List CommentRec
  | .nil => []
  | .cons n rest => walkNode post_id n ++ walkList post_id rest

def walkNode (post_id : String) : RNode → List CommentRec
  | .mk kind id pid author body score cu replies =>
    if kind = "t1" then
      { post_id := post_id, comment_id := id, parent_id := pid, author := author,
        body := body, score := score, created_utc := cu } :: walkReplies post_id replies
    else []

def walkReplies (post_id : String) : RReplies → List CommentRec
  | .absent => []
  | .listing ch => walkList post_id ch

end

/-- Embeds `flatten_comments_tree(comments_data, post_id)`. -/
def flatten_comments_tree (comments_data : RNodeList) (post_id : String) : List CommentRec :=
  walkList post_id comments_data

/- Parent references.  A comment's `parent_id` field carries a type
prefix: "t3_" + post id when the parent is the post itself, and
"t1_" + comment id when the parent is another comment. -/

def postRef (post_id : String) : String := "t3_" ++ post_id

def commentRef (comment_id : String) : String := "t1_" ++ comment_id

mutual

/-- Well-formed nested input w.r.t. an expected parent reference: the
node's own parent_id names `pref`, and each nested child names this
node's id (a node with children but no id is malformed). -/
def nodeWF (pref : String) : RNode → Bool
  | .mk _ id pid _ _ _ _ replies =>
    pid == some pref &&
    (match replies with
     | .absent => true
     | .listing ch =>
       match id with
       | none => ch.isNil
       | some nid => listWF (commentRef nid) ch)

def listWF (pref : String) : RNodeList → Bool
  | .nil => true
  | .cons n rest => nodeWF pref n && listWF pref rest

end

/-- The comment `c` points at the owning post, or at a comment with an
id among `earlier`. -/
def parentOK (post_id : String) (earlier : List CommentRec) (c : CommentRec) : Prop :=
  c.parent_id = some (postRef post_id) ∨
  ∃ e ∈ earlier, ∃ cid : String, e.comment_id = some cid ∧ c.parent_id = some (commentRef cid)

/-- Every element of the second list is `parentOK` w.r.t. the comments
accumulated before it (starting from `prior`). -/
def parentsOK (post_id : String) : List CommentRec → List CommentRec → Prop
  | _, [] => True
  | prior, c :: rest => parentOK post_id prior c ∧ parentsOK post_id (prior ++ [c]) rest

/-- The reference `pref` is resolvable: it is the owning post's
reference or the reference of a comment occurring in `prior`. -/
def refAvail (post_id pref : String) (prior : List CommentRec) : Prop :=
  pref = postRef post_id ∨
  ∃ e ∈ prior, ∃ cid : String, e.comment_id = some cid ∧ pref = commentRef cid

theorem parentOK_mono {post_id : String} {prior prior' : List CommentRec} {c : CommentRec}
    (h : parentOK post_id prior c) (hsub : prior ⊆ prior') : parentOK post_id prior' c := by
  rcases h with h | ⟨e, he, cid, h1, h2⟩
  · exact Or.inl h
  · exact Or.inr ⟨e, hsub he, cid, h1, h2⟩

theorem refAvail_mono {post_id pref : String} {prior prior' : List CommentRec}
    (h : refAvail post_id pref prior) (hsub : prior ⊆ prior') : refAvail post_id pref prior' := by
  rcases h with h | ⟨e, he, cid, h1, h2⟩
  · exact Or.inl h
  · exact Or.inr ⟨e, hsub he, cid, h1, h2⟩

theorem parentsOK_append (post_id : String) :
    ∀ (l1 l2 : List CommentRec) (prior : List CommentRec),
      parentsOK post_id prior l1 → parentsOK post_id (prior ++ l1) l2 →
      parentsOK post_id prior (l1 ++ l2)
  | [], l2, prior, _, h2 => by simpa using h2
  | c :: t, l2, prior, ⟨h1, h1'⟩, h2 => by
    refine ⟨h1, parentsOK_append post_id t l2 (prior ++ [c]) h1' ?_⟩
    simpa [List.append_assoc] using h2

theorem nodeWF_parent {pref kind : String} {id pid author body : Option String}
    {score cu : Option Int} {replies : RReplies}
    (h : nodeWF pref (.mk kind id pid author body score cu replies) = true) :
    pid = some pref := by
  simp only [nodeWF.eq_def] at h
  rw [Bool.and_eq_true] at h
  exact beq_iff_eq.mp h.1

theorem nodeWF_children_nil {pref kind : String} {pid author body : Option String}
    {score cu : Option Int} {ch : RNodeList}
    (h : nodeWF pref (.mk kind none pid author body score cu (.listing ch)) = true) :
    ch = RNodeList.nil := by
  simp only [nodeWF.eq_def] at h
  rw [Bool.and_eq_true] at h
  cases ch with
  | nil => rfl
  | cons _ _ => simpa [RNodeList.isNil] using h.2

theorem nodeWF_children_wf {pref kind nid : String} {pid author body : Option String}
    {score cu : Option Int} {ch : RNodeList}
    (h : nodeWF pref (.mk kind (some nid) pid author body score cu (.listing ch)) = true) :
    listWF (commentRef nid) ch = true := by
  simp only [nodeWF.eq_def] at h
  rw [Bool.and_eq_true] at h
  exact h.2

theorem parentOK_of_refAvail {post_id pref : String} {prior : List CommentRec}
    (hav : refAvail post_id pref prior) {c : CommentRec}
    (hc : c.parent_id = some pref) : parentOK post_id prior c := by
  rcases hav with h | ⟨e, he, cid, h1, h2⟩
  · exact Or.inl (by rw [hc, h])
  · exact Or.inr ⟨e, he, cid, h1, by rw [hc, h2]⟩

theorem walkList_parentsOK (post_id : String) :
    ∀ (l : RNodeList) (pref : String), listWF pref l = true →
      ∀ (prior : List CommentRec), refAvail post_id pref prior →
        parentsOK post_id prior (walkList post_id l)
  | .nil, _, _, _, _ => trivial
  | .cons (RNode.mk kind id pid author body score cu .absent) rest, pref, hwf, prior, hav => by
    rw [listWF, Bool.and_eq_true] at hwf
    have hpid : pid = some pref := nodeWF_parent hwf.1
    rw [walkList]
    refine parentsOK_append post_id _ _ _ ?_
      (walkList_parentsOK post_id rest pref hwf.2 _
        (refAvail_mono hav (List.subset_append_left _ _)))
    by_cases hk : kind = "t1"
    · rw [walkNode, if_pos hk]
      exact ⟨parentOK_of_refAvail hav hpid, trivial⟩
    · rw [walkNode, if_neg hk]
      exact trivial
  | .cons (RNode.mk kind none pid author body score cu (.listing ch)) rest,
      pref, hwf, prior, hav => by
    rw [listWF, Bool.and_eq_true] at hwf
    have hpid : pid = some pref := nodeWF_parent hwf.1
    have hrep : ch = RNodeList.nil := nodeWF_children_nil hwf.1
    subst hrep
    rw [walkList]
    refine parentsOK_append post_id _ _ _ ?_
      (walkList_parentsOK post_id rest pref hwf.2 _
        (refAvail_mono hav (List.subset_append_left _ _)))
    by_cases hk : kind = "t1"
    · rw [walkNode, if_pos hk]
      exact ⟨parentOK_of_refAvail hav hpid, trivial⟩
    · rw [walkNode, if_neg hk]
      exact trivial
  | .cons (RNode.mk kind (some nid) pid author body score cu (.listing ch)) rest,
      pref, hwf, prior, hav => by
    rw [listWF, Bool.and_eq_true] at hwf
    have hpid : pid = some pref := nodeWF_parent hwf.1
    have hrep : listWF (commentRef nid) ch = true := nodeWF_children_wf hwf.1
    rw [walkList]
    refine parentsOK_append post_id _ _ _ ?_
      (walkList_parentsOK post_id rest pref hwf.2 _
        (refAvail_mono hav (List.subset_append_left _ _)))
    by_cases hk : kind = "t1"
    · rw [walkNode, if_pos hk]
      refine ⟨parentOK_of_refAvail hav hpid, ?_⟩
      show parentsOK post_id _ (walkList post_id ch)
      refine walkList_parentsOK post_id ch (commentRef nid) hrep _ ?_
      exact Or.inr ⟨_, List.mem_append_right _ (List.mem_singleton_self _), nid, rfl, rfl⟩
    · rw [walkNode, if_neg hk]
      exact trivial
termination_by l => sizeOf l
decreasing_by all_goals simp <;> omega

theorem parentsOK_get (post_id : String) :
    ∀ (l prior : List CommentRec), parentsOK post_id prior l →
      ∀ (i : Nat) (h : i < l.length),
        parentOK post_id (prior ++ l.take i) (l.get ⟨i, h⟩)
  | [], _, _, i, h => absurd h (by simp)
  | c :: rest, prior, ⟨h1, h2⟩, 0, _ => by simpa using h1
  | c :: rest, prior, ⟨h1, h2⟩, i + 1, h => by
    have := parentsOK_get post_id rest (prior ++ [c]) h2 i (by simpa using h)
    simpa [List.append_assoc] using this

/-- C1: for every well-formed nested reply-tree input (each nested
child's parent_id names its enclosing comment's id, each top-level
node's parent_id names the post), every record in the output of
`flatten_comments_tree` has a parent_id referring either to the owning
post or to a comment record strictly earlier in the returned list. -/
theorem flatten_parent_before_child (post_id : String) (nodes : RNodeList)
    (hwf : listWF (postRef post_id) nodes = true)
    (i : Nat) (h : i < (flatten_comments_tree nodes post_id).length) :
    parentOK post_id ((flatten_comments_tree nodes post_id).take i)
      ((flatten_comments_tree nodes post_id).get ⟨i, h⟩) := by
  have h1 := walkList_parentsOK post_id nodes (postRef post_id) hwf [] (Or.inl rfl)
  have h2 := parentsOK_get post_id _ [] h1 i h
  simpa using h2

/- Concrete two-level well-formed tree used to witness C1. -/

def wNodes : RNodeList :=
  .cons (RNode.mk "t1" (some "a") (some "t3_p") (some "u1") (some "hello") (some 3) (some 10)
    (.listing (.cons
      (RNode.mk "t1" (some "b") (some "t1_a") (some "u2") (some "reply") (some 1) (some 11)
        .absent) .nil))) .nil

theorem flatten_parent_before_child_witness :
    parentOK "p" ((flatten_comments_tree wNodes "p").take 1)
      ((flatten_comments_tree wNodes "p").get ⟨1, by decide⟩) :=
  flatten_parent_before_child "p" wNodes (by decide) 1 (by decide)

theorem walkList_append (post_id : String) :
    ∀ (l1 l2 : RNodeList),
      walkList post_id (l1.append l2) = walkList post_id l1 ++ walkList post_id l2
  | .nil, l2 => by simp [RNodeList.append, walkList]
  | .cons n t, l2 => by
    simp [RNodeList.append, walkList, walkList_append post_id t l2]

theorem walkNode_eq_nil_of_not_t1 (post_id : String) (n : RNode) (hn : n.kind ≠ "t1") :
    walkNode post_id n = [] := by
  cases n with
  | mk kind id pid author body score cu replies =>
    rw [walkNode, if_neg (by simpa [RNode.kind] using hn)]

theorem walkList_eq_nil_of_no_t1 (post_id : String) :
    ∀ (l : RNodeList), (∀ m ∈ l.toList, m.kind ≠ "t1") → walkList post_id l = []
  | .nil, _ => rfl
  | .cons n t, h => by
    rw [walkList, walkNode_eq_nil_of_not_t1 post_id n (h n (by simp [RNodeList.toList])),
      walkList_eq_nil_of_no_t1 post_id t (fun m hm => h m (by simp [RNodeList.toList, hm]))]
    rfl

/-- C7: the flattener skips a node whose kind is not "t1" entirely
(no record, no recursion below it), and an input consisting only of
non-comment-kind top-level nodes flattens to the empty list. -/
theorem flatten_skips_non_comment (post_id : String) (n : RNode) (pre post nodes : RNodeList)
    (hn : n.kind ≠ "t1") (hall : ∀ m ∈ nodes.toList, m.kind ≠ "t1") :
    flatten_comments_tree (pre.append (.cons n post)) post_id
        = flatten_comments_tree (pre.append post) post_id ∧
    flatten_comments_tree nodes post_id = [] := by
  constructor
  · show walkList post_id _ = walkList post_id _
    rw [walkList_append, walkList_append, walkList, walkNode_eq_nil_of_not_t1 post_id n hn]
    rfl
  · exact walkList_eq_nil_of_no_t1 post_id nodes hall

/- Concrete inputs witnessing C7: a "more" placeholder node that even
carries nested comment children, which must all be dropped. -/

def wMore : RNode :=
  RNode.mk "more" none (some "t3_p") none none none none
    (.listing (.cons (RNode.mk "t1" (some "z") (some "t1_q") none (some "hidden") none none
      .absent) .nil))

def wPre : RNodeList :=
  .cons (RNode.mk "t1" (some "a") (some "t3_p") none (some "top") (some 2) (some 5) .absent) .nil

theorem flatten_skips_non_comment_witness :
    flatten_comments_tree (wPre.append (.cons wMore .nil)) "p"
        = flatten_comments_tree (wPre.append .nil) "p" ∧
    flatten_comments_tree (RNodeList.cons wMore .nil) "p" = [] :=
  flatten_skips_non_comment "p" wMore wPre .nil (RNodeList.cons wMore .nil)
    (by decide) (by decide)

/- ==================== Python string primitives ====================
   ASCII-level model of the `str` operations the pipeline uses.
   `str.lower()` is modelled on the ASCII letters (the only characters
   the regex character classes in the source mention). -/

/-- ASCII lowercasing of one character (codes 65-90 map to 97-122). -/
def pyLower (c : Char) : Char :=
  if 65 ≤ c.toNat && c.toNat ≤ 90 then Char.ofNat (c.toNat + 32) else c

/-- Embeds `text.lower()`. -/
def strLower (s : String) : String := String.mk (s.toList.map pyLower)

def containsSubAux : List Char → List Char → Bool
  | kw, [] => kw.isEmpty
  | kw, c :: rest => List.isPrefixOf kw (c :: rest) || containsSubAux kw rest

/-- Embeds Python's substring test `kw in text`. -/
def containsSub (text kw : String) : Bool := containsSubAux kw.toList text.toList

/- ==================== Feed paginator ======================
   Embeds `fetch_ai_posts_by_scanning_feed` of src/etl/extract_reddit.py.
   A page request is a network effect: `getPage i` is the parsed
   response to the i-th page request (the opaque `after` cursor
   threading is implicit in the request index).  The Python loop is
   unbounded; `fuel` bounds its iterations in the embedding. -/

/-- Fields read from a feed child's `data` dict (the envelope's `data`
key; a missing dict yields all-absent fields). -/
structure PostData where
  id : Option String
  subreddit : Option String
  title : Option String
  selftext : Option String
  score : Option Int
  num_comments : Option Int
  created_utc : Option Int
  author : Option String
  url : Option String
  permalink : Option String
  over_18 : Option Bool
  upvote_ratio : Option Rat
deriving DecidableEq, Repr

/-- One page of the /new listing: the HTTP status and, from
`resp.json()["data"]`, the `children` and `after` fields. -/
structure Page where
  status : Nat
  children : List PostData
  after : Option String

def BASE_URL : String := "https://www.reddit.com"

/-- Python f-string interpolation of a value that may be None. -/
def pyFormatOpt : Option String → String
  | some s => s
  | none => "None"

/-- The record dict appended to `collected` for a matching post. -/
structure PostRec where
  id : Option String
  subreddit : Option String
  title : String
  selftext : String
  score : Option Int
  num_comments : Option Int
  created_utc : Option Int
  author : Option String
  url : Option String
  permalink : String
  over_18 : Option Bool
  upvote_ratio : Option Rat
deriving DecidableEq, Repr

def mkPostRec (d : PostData) (title selftext : String) : PostRec :=
  { id := d.id, subreddit := d.subreddit, title := title, selftext := selftext,
    score := d.score, num_comments := d.num_comments, created_utc := d.created_utc,
    author := d.author, url := d.url,
    permalink := BASE_URL ++ pyFormatOpt d.permalink,
    over_18 := d.over_18, upvote_ratio := d.upvote_ratio }

/-- Whether a feed child matches: some keyword is a substring of
`(title + " " + selftext).lower()`, where an absent (or empty) title
or selftext becomes "" via Python's `or ""`. -/
def childMatches (lkws : List String) (d : PostData) : Bool :=
  lkws.any (fun kw =>
    containsSub (strLower ((d.title.getD "") ++ " " ++ (d.selftext.getD ""))) kw)

/-- The for-loop over a page's children: keep a child iff it matches,
and break out as soon as `max_posts` matches have accumulated.
`lkws` is the already-lowercased keyword list. -/
def processChildren (lkws : List String) (max_posts : Nat) :
    List PostRec → List PostData → List PostRec
  | collected, [] => collected
  | collected, d :: rest =>
    if childMatches lkws d then
      if max_posts ≤ (collected ++ [mkPostRec d (d.title.getD "") (d.selftext.getD "")]).length
      then collected ++ [mkPostRec d (d.title.getD "") (d.selftext.getD "")]
      else processChildren lkws max_posts
        (collected ++ [mkPostRec d (d.title.getD "") (d.selftext.getD "")]) rest
    else processChildren lkws max_posts collected rest

/-- The while-loop: stop when the target is reached, the request is a
non-200, the page has no children, or no continuation cursor comes
back (Python tests the cursor's truthiness, so an empty-string cursor
also stops; note the cursor test happens after the page's children
are processed). -/
def scanLoop (lkws : List String) (max_posts : Nat) (getPage : Nat → Page) :
    Nat → Nat → List PostRec → List PostRec
  | 0, _, collected => collected
  | fuel + 1, req, collected =>
    if collected.length < max_posts then
      if (getPage req).status ≠ 200 then collected
      else if (getPage req).children.isEmpty then collected
      else if ((getPage req).after.getD "") = "" then
        processChildren lkws max_posts collected (getPage req).children
      else
        scanLoop lkws max_posts getPage fuel (req + 1)
          (processChildren lkws max_posts collected (getPage req).children)
    else collected

/-- Embeds `fetch_ai_posts_by_scanning_feed`; `subreddit_name` and
`page_limit` only shape the request URL and parameters, which the
abstract `getPage` absorbs. -/
def fetch_ai_posts_by_scanning_feed (subreddit_name : String) (keywords : List String)
    (max_posts page_limit fuel : Nat) (getPage : Nat → Page) : List PostRec :=
  scanLoop (keywords.map strLower) max_posts getPage fuel 0 []

/-- A fully successful page: status 200, a non-empty child list whose
every child matches some keyword, and a truthy continuation cursor. -/
def goodPage (lkws : List String) (p : Page) : Bool :=
  p.status == 200 && !p.children.isEmpty && (p.after.getD "") != "" &&
  p.children.all (childMatches lkws)

theorem processChildren_length_le (lkws : List String) (mp : Nat) :
    ∀ (ds : List PostData) (collected : List PostRec),
      collected.length < mp → (processChildren lkws mp collected ds).length ≤ mp
  | [], _, h => le_of_lt h
  | d :: rest, collected, h => by
    rw [processChildren]
    split
    · split
      · simp only [List.length_append, List.length_singleton, List.length_cons, List.length_nil]
        omega
      · exact processChildren_length_le lkws mp rest _ (by simp at *; omega)
    · exact processChildren_length_le lkws mp rest _ h

theorem processChildren_length_all (lkws : List String) (mp : Nat) :
    ∀ (ds : List PostData) (collected : List PostRec),
      (∀ d ∈ ds, childMatches lkws d = true) →
      collected.length < mp →
      (processChildren lkws mp collected ds).length = min (collected.length + ds.length) mp
  | [], collected, _, h => by
    rw [processChildren]
    simp only [List.length_nil, Nat.add_zero]
    omega
  | d :: rest, collected, hall, h => by
    rw [processChildren]
    rw [if_pos (hall d (by simp))]
    split
    next hs =>
      simp only [List.length_append, List.length_singleton, List.length_cons, List.length_nil] at hs ⊢
      omega
    next hs =>
      simp only [List.length_append, List.length_singleton, List.length_cons,
        List.length_nil] at hs
      have hlt2 : (collected ++ [mkPostRec d (d.title.getD "") (d.selftext.getD "")]).length < mp := by
        simp only [List.length_append, List.length_singleton, List.length_cons, List.length_nil]
        omega
      rw [processChildren_length_all lkws mp rest _
        (fun x hx => hall x (by simp [hx])) hlt2]
      simp only [List.length_append, List.length_singleton, List.length_cons, List.length_nil]
      omega

theorem scanLoop_length_le (lkws : List String) (mp : Nat) (getPage : Nat → Page) :
    ∀ (fuel req : Nat) (collected : List PostRec),
      collected.length ≤ mp → (scanLoop lkws mp getPage fuel req collected).length ≤ mp
  | 0, _, _, h => h
  | fuel + 1, req, collected, h => by
    rw [scanLoop]
    split
    · split
      · exact h
      · split
        · exact h
        · split
          · exact processChildren_length_le lkws mp _ _ (by assumption)
          · exact scanLoop_length_le lkws mp getPage fuel _ _
              (processChildren_length_le lkws mp _ _ (by assumption))
    · exact h

theorem scanLoop_length_exact (lkws : List String) (mp : Nat) (getPage : Nat → Page)
    (hgood : ∀ i, goodPage lkws (getPage i) = true) :
    ∀ (fuel req : Nat) (collected : List PostRec),
      collected.length ≤ mp → mp ≤ collected.length + fuel →
      (scanLoop lkws mp getPage fuel req collected).length = mp
  | 0, _, _, h1, h2 => by
    rw [scanLoop]
    omega
  | fuel + 1, req, collected, h1, h2 => by
    have hg := hgood req
    simp only [goodPage, Bool.and_eq_true, beq_iff_eq, bne_iff_ne, Bool.not_eq_true',
      List.all_eq_true] at hg
    obtain ⟨⟨⟨hst, hne⟩, haf⟩, hall⟩ := hg
    rw [scanLoop]
    by_cases hlt : collected.length < mp
    · rw [if_pos hlt, if_neg (by omega), if_neg (by simp [hne]), if_neg haf]
      have hlen := processChildren_length_all lkws mp (getPage req).children collected hall hlt
      have hch : 1 ≤ (getPage req).children.length := by
        cases hc : (getPage req).children with
        | nil => rw [hc] at hne; simp at hne
        | cons _ _ => simp
      exact scanLoop_length_exact lkws mp getPage hgood fuel (req + 1) _
        (by rw [hlen]; omega) (by rw [hlen]; omega)
    · rw [if_neg hlt]
      omega

/-- C2: for every source of feed pages and every target `max_posts`,
the paginator's result has length at most `max_posts`; and when every
page is a full success carrying only matching items and a continuation
cursor (an unlimited matching source), the result has length exactly
`max_posts` (with fuel for at least `max_posts` loop iterations). -/
theorem scan_feed_bounded (subreddit_name : String) (keywords : List String)
    (max_posts page_limit fuel : Nat) (getPage : Nat → Page) :
    (fetch_ai_posts_by_scanning_feed subreddit_name keywords
        max_posts page_limit fuel getPage).length ≤ max_posts ∧
    ((∀ i, goodPage (keywords.map strLower) (getPage i) = true) → max_posts ≤ fuel →
      (fetch_ai_posts_by_scanning_feed subreddit_name keywords
          max_posts page_limit fuel getPage).length = max_posts) := by
  constructor
  · exact scanLoop_length_le _ _ _ fuel 0 [] (by simp)
  · intro hgood hfuel
    exact scanLoop_length_exact _ _ _ hgood fuel 0 [] (by simp) (by simpa using hfuel)

/- Concrete unlimited source witnessing C2: every page returns one
matching child and a cursor. -/

def wChild : PostData :=
  { id := some "p1", subreddit := some "technology", title := some "AI news",
    selftext := none, score := some 10, num_comments := some 2, created_utc := some 100,
    author := some "u", url := some "https://example.com", permalink := some "/r/t/p1",
    over_18 := some false, upvote_ratio := some 1 }

def wPage : Page := { status := 200, children := [wChild], after := some "t3_cursor" }

theorem scan_feed_bounded_witness :
    (fetch_ai_posts_by_scanning_feed "technology" ["ai"] 2 100 2 (fun _ => wPage)).length = 2 :=
  (scan_feed_bounded "technology" ["ai"] 2 100 2 (fun _ => wPage)).2
    (fun _ => by decide) (by decide)

/- ==================== Comment fetcher ======================
   Embeds `fetch_comments_for_posts` of src/etl/extract_reddit.py.
   `respond i` is the parsed response to the comments request issued
   for the post at position `i` of the (truncated) post list; positions
   whose post has no truthy id issue no request.  The code accepts the
   body only when it is a list of length at least two and reads
   `data[1]["data"]["children"]`; each body element is modelled by
   that children listing (absent "data"/"children" keys give the empty
   listing), and `isList` models `isinstance(data, list)`.  The
   request's `limit`/`sort` parameters are absorbed by `respond`. -/

structure CResp where
  status : Nat
  isList : Bool
  elems : List RNodeList

/-- The listing `data[1].get("data", {}).get("children", [])`. -/
def commentsListing (r : CResp) : RNodeList := r.elems.getD 1 .nil

/-- The for-loop of `fetch_comments_for_posts`: skip posts with no
truthy id, stop completely on a 429 (keeping what was accumulated),
skip on any other non-200 or on a malformed body shape, and otherwise
flatten the listing, truncate it to `maxPer` when longer, and continue. -/
def fetchLoop (maxPer : Nat) (respond : Nat → CResp) : Nat → List PostRec → List CommentRec
  | _, [] => []
  | i, post :: rest =>
    if (post.id.getD "") = "" then fetchLoop maxPer respond (i + 1) rest
    else if (respond i).status = 429 then []
    else if (respond i).status ≠ 200 then fetchLoop maxPer respond (i + 1) rest
    else if !(respond i).isList || (respond i).elems.length < 2 then
      fetchLoop maxPer respond (i + 1) rest
    else
      (if maxPer < (flatten_comments_tree (commentsListing (respond i)) (post.id.getD "")).length
       then (flatten_comments_tree (commentsListing (respond i)) (post.id.getD "")).take maxPer
       else flatten_comments_tree (commentsListing (respond i)) (post.id.getD ""))
      ++ fetchLoop maxPer respond (i + 1) rest

/-- Embeds `fetch_comments_for_posts(posts, max_comments_per_post,
max_posts_with_comments)`: it processes `posts[:max_posts_with_comments]`. -/
def fetch_comments_for_posts (posts : List PostRec)
    (max_comments_per_post max_posts_with_comments : Nat)
    (respond : Nat → CResp) : List CommentRec :=
  fetchLoop max_comments_per_post respond 0 (posts.take max_posts_with_comments)

/-- Observable effects of the fetcher: issuing the comments request for
the post at position `i`, and the politeness delay `time.sleep(1)`. -/
inductive FEvent where
  | creq (i : Nat)
  | csleep
deriving DecidableEq, Repr

/-- The sequence of requests and delays the fetcher performs, with the
same control flow as `fetchLoop`: the `time.sleep(1)` sits at the end
of the loop body's success path, after the flattened comments are
accumulated, so skip branches reach the next request without a delay. -/
def fetchTrace (respond : Nat → CResp) : Nat → List PostRec → List FEvent
  | _, [] => []
  | i, post :: rest =>
    if (post.id.getD "") = "" then fetchTrace respond (i + 1) rest
    else if (respond i).status = 429 then [FEvent.creq i]
    else if (respond i).status ≠ 200 then FEvent.creq i :: fetchTrace respond (i + 1) rest
    else if !(respond i).isList || (respond i).elems.length < 2 then
      FEvent.creq i :: fetchTrace respond (i + 1) rest
    else FEvent.creq i :: FEvent.csleep :: fetchTrace respond (i + 1) rest

theorem fetchLoop_429 (maxPer : Nat) (respond : Nat → CResp) :
    ∀ (l : List PostRec) (idx k : Nat) (hk : k < l.length),
      ((l.get ⟨k, hk⟩).id.getD "") ≠ "" →
      (respond (idx + k)).status = 429 →
      (∀ (j : Nat) (hj : j < l.length), j < k →
        ((l.get ⟨j, hj⟩).id.getD "") ≠ "" → (respond (idx + j)).status ≠ 429) →
      fetchLoop maxPer respond idx l = fetchLoop maxPer respond idx (l.take k) ∧
      fetchTrace respond idx l = fetchTrace respond idx (l.take k) ++ [FEvent.creq (idx + k)]
  | [], _, k, hk, _, _, _ => absurd hk (by simp)
  | post :: rest, idx, 0, hk, hid, h429, _ => by
    rw [Nat.add_zero] at h429
    have hid' : ¬ ((post.id.getD "") = "") := by simpa using hid
    constructor
    · rw [List.take_zero, fetchLoop, fetchLoop, if_neg hid', if_pos h429]
    · rw [List.take_zero, fetchTrace, fetchTrace, if_neg hid', if_pos h429,
        Nat.add_zero, List.nil_append]
  | post :: rest, idx, k + 1, hk, hid, h429, hprev => by
    have hk' : k < rest.length := by simpa using hk
    have hid'' : ((rest.get ⟨k, hk'⟩).id.getD "") ≠ "" := by simpa using hid
    have h429' : (respond (idx + 1 + k)).status = 429 := by
      have : idx + 1 + k = idx + (k + 1) := by omega
      rw [this]
      exact h429
    have hprev' : ∀ (j : Nat) (hj : j < rest.length), j < k →
        ((rest.get ⟨j, hj⟩).id.getD "") ≠ "" → (respond (idx + 1 + j)).status ≠ 429 := by
      intro j hj hjk hv
      have : idx + 1 + j = idx + (j + 1) := by omega
      rw [this]
      exact hprev (j + 1) (by simpa using hj) (by omega) (by simpa using hv)
    have IH := fetchLoop_429 maxPer respond rest (idx + 1) k hk' hid'' h429' hprev'
    have hkadd : idx + 1 + k = idx + (k + 1) := by omega
    rw [List.take_succ_cons]
    by_cases h0 : (post.id.getD "") = ""
    · constructor
      · rw [fetchLoop, fetchLoop, if_pos h0, if_pos h0, IH.1]
      · rw [fetchTrace, fetchTrace, if_pos h0, if_pos h0, IH.2, hkadd]
    · have hn429 : ¬ (respond idx).status = 429 := by
        have := hprev 0 (by simp) (by omega) (by simpa using h0)
        simpa using this
      by_cases h200 : (respond idx).status ≠ 200
      · constructor
        · rw [fetchLoop, fetchLoop, if_neg h0, if_neg h0, if_neg hn429, if_neg hn429,
            if_pos h200, if_pos h200, IH.1]
        · rw [fetchTrace, fetchTrace, if_neg h0, if_neg h0, if_neg hn429, if_neg hn429,
            if_pos h200, if_pos h200, IH.2, hkadd, List.cons_append]
      · by_cases hshape : !(respond idx).isList || (respond idx).elems.length < 2
        · constructor
          · rw [fetchLoop, fetchLoop, if_neg h0, if_neg h0, if_neg hn429, if_neg hn429,
              if_neg h200, if_neg h200, if_pos hshape, if_pos hshape, IH.1]
          · rw [fetchTrace, fetchTrace, if_neg h0, if_neg h0, if_neg hn429, if_neg hn429,
              if_neg h200, if_neg h200, if_pos hshape, if_pos hshape, IH.2, hkadd,
              List.cons_append]
        · constructor
          · rw [fetchLoop, fetchLoop, if_neg h0, if_neg h0, if_neg hn429, if_neg hn429,
              if_neg h200, if_neg h200, if_neg hshape, if_neg hshape, IH.1]
          · rw [fetchTrace, fetchTrace, if_neg h0, if_neg h0, if_neg hn429, if_neg hn429,
              if_neg h200, if_neg h200, if_neg hshape, if_neg hshape, IH.2, hkadd,
              List.cons_append, List.cons_append]

/-- C3: if the comment request for the post at position `k` of the
processed list returns 429 (and no earlier request did), the fetcher's
result is exactly what the loop accumulates over the posts before
position `k`, and its effect trace ends with the request at `k`:
no request is issued for any later post. -/
theorem fetch_stops_on_429 (posts : List PostRec)
    (max_comments_per_post max_posts_with_comments k : Nat) (respond : Nat → CResp)
    (hk : k < (posts.take max_posts_with_comments).length)
    (hid : (((posts.take max_posts_with_comments).get ⟨k, hk⟩).id.getD "") ≠ "")
    (h429 : (respond k).status = 429)
    (hprev : ∀ (j : Nat) (hj : j < (posts.take max_posts_with_comments).length), j < k →
      (((posts.take max_posts_with_comments).get ⟨j, hj⟩).id.getD "") ≠ "" →
      (respond j).status ≠ 429) :
    fetch_comments_for_posts posts max_comments_per_post max_posts_with_comments respond
        = fetchLoop max_comments_per_post respond 0
            ((posts.take max_posts_with_comments).take k) ∧
    fetchTrace respond 0 (posts.take max_posts_with_comments)
        = fetchTrace respond 0 ((posts.take max_posts_with_comments).take k)
            ++ [FEvent.creq k] := by
  have := fetchLoop_429 max_comments_per_post respond (posts.take max_posts_with_comments)
    0 k hk hid (by simpa using h429) (by simpa using hprev)
  simpa using this

/- Concrete fetcher scenario witnessing C3: the first post's request
succeeds with two comments, the second post's request is rate-limited,
a third post follows but is never requested. -/

def wPost (pid : String) : PostRec :=
  { id := some pid, subreddit := none, title := "t", selftext := "", score := none,
    num_comments := none, created_utc := none, author := none, url := none,
    permalink := "", over_18 := none, upvote_ratio := none }

def wRespond : Nat → CResp
  | 0 => { status := 200, isList := true,
           elems := [.nil,
             .cons (RNode.mk "t1" (some "c1") (some "t3_p1") none (some "x") none none .absent)
               (.cons (RNode.mk "t1" (some "c2") (some "t3_p1") none (some "y") none none .absent)
                 .nil)] }
  | 1 => { status := 429, isList := true, elems := [] }
  | _ => { status := 200, isList := true, elems := [.nil, .nil] }

theorem fetch_stops_on_429_witness :
    fetch_comments_for_posts [wPost "p1", wPost "p2", wPost "p3"] 20 5 wRespond
        = fetchLoop 20 wRespond 0 (([wPost "p1", wPost "p2", wPost "p3"].take 5).take 1) ∧
    fetchTrace wRespond 0 ([wPost "p1", wPost "p2", wPost "p3"].take 5)
        = fetchTrace wRespond 0 (([wPost "p1", wPost "p2", wPost "p3"].take 5).take 1)
            ++ [FEvent.creq 1] :=
  fetch_stops_on_429 [wPost "p1", wPost "p2", wPost "p3"] 20 5 1 wRespond (by decide)
    (by decide) (by decide) (by decide)

/-- Per-post chunk decomposition of the fetcher: the same control flow
as `fetchLoop`, but each successfully processed post contributes its
own chunk, namely its flattened listing truncated to the cap only
after the whole listing has been flattened. -/
def fetchChunks (maxPer : Nat) (respond : Nat → CResp) :
    Nat → List PostRec → List (List CommentRec)
  | _, [] => []
  | i, post :: rest =>
    if (post.id.getD "") = "" then fetchChunks maxPer respond (i + 1) rest
    else if (respond i).status = 429 then []
    else if (respond i).status ≠ 200 then fetchChunks maxPer respond (i + 1) rest
    else if !(respond i).isList || (respond i).elems.length < 2 then
      fetchChunks maxPer respond (i + 1) rest
    else
      (flatten_comments_tree (commentsListing (respond i)) (post.id.getD "")).take maxPer
        :: fetchChunks maxPer respond (i + 1) rest

theorem fetchLoop_eq_join (maxPer : Nat) (respond : Nat → CResp) :
    ∀ (idx : Nat) (l : List PostRec),
      fetchLoop maxPer respond idx l = (fetchChunks maxPer respond idx l).flatten
  | _, [] => rfl
  | idx, post :: rest => by
    rw [fetchLoop, fetchChunks]
    by_cases h0 : (post.id.getD "") = ""
    · rw [if_pos h0, if_pos h0]
      exact fetchLoop_eq_join maxPer respond (idx + 1) rest
    · rw [if_neg h0, if_neg h0]
      by_cases h429 : (respond idx).status = 429
      · rw [if_pos h429, if_pos h429]
        rfl
      · rw [if_neg h429, if_neg h429]
        by_cases h200 : (respond idx).status ≠ 200
        · rw [if_pos h200, if_pos h200]
          exact fetchLoop_eq_join maxPer respond (idx + 1) rest
        · rw [if_neg h200, if_neg h200]
          by_cases hshape : !(respond idx).isList || (respond idx).elems.length < 2
          · rw [if_pos hshape, if_pos hshape]
            exact fetchLoop_eq_join maxPer respond (idx + 1) rest
          · rw [if_neg hshape, if_neg hshape, List.flatten_cons,
              fetchLoop_eq_join maxPer respond (idx + 1) rest]
            congr 1
            split
            · rfl
            next h => exact (List.take_of_length_le (by omega)).symm

theorem fetchChunks_length_le (maxPer : Nat) (respond : Nat → CResp) :
    ∀ (idx : Nat) (l : List PostRec) (ch : List CommentRec),
      ch ∈ fetchChunks maxPer respond idx l → ch.length ≤ maxPer
  | idx, [], ch, h => absurd h (by rw [fetchChunks]; simp)
  | idx, post :: rest, ch, h => by
    rw [fetchChunks] at h
    by_cases h0 : (post.id.getD "") = ""
    · rw [if_pos h0] at h
      exact fetchChunks_length_le maxPer respond (idx + 1) rest ch h
    · rw [if_neg h0] at h
      by_cases h429 : (respond idx).status = 429
      · rw [if_pos h429] at h
        simp at h
      · rw [if_neg h429] at h
        by_cases h200 : (respond idx).status ≠ 200
        · rw [if_pos h200] at h
          exact fetchChunks_length_le maxPer respond (idx + 1) rest ch h
        · rw [if_neg h200] at h
          by_cases hshape : !(respond idx).isList || (respond idx).elems.length < 2
          · rw [if_pos hshape] at h
            exact fetchChunks_length_le maxPer respond (idx + 1) rest ch h
          · rw [if_neg hshape] at h
            rcases List.mem_cons.mp h with hch | hmem
            · rw [hch, List.length_take]
              omega
            · exact fetchChunks_length_le maxPer respond (idx + 1) rest ch hmem

/-- C5: the fetcher's result is exactly the concatenation of per-post
chunks, where a successfully processed post's chunk is its flattened
listing truncated to `max_comments_per_post` after flattening; hence
every processed post contributes at most `max_comments_per_post`
records, however long the upstream listing. -/
theorem fetch_per_post_cap (posts : List PostRec)
    (max_comments_per_post max_posts_with_comments : Nat) (respond : Nat → CResp) :
    fetch_comments_for_posts posts max_comments_per_post max_posts_with_comments respond
        = (fetchChunks max_comments_per_post respond 0
            (posts.take max_posts_with_comments)).flatten ∧
    ∀ ch ∈ fetchChunks max_comments_per_post respond 0 (posts.take max_posts_with_comments),
      ch.length ≤ max_comments_per_post :=
  ⟨fetchLoop_eq_join max_comments_per_post respond 0 (posts.take max_posts_with_comments),
   fun ch hch => fetchChunks_length_le max_comments_per_post respond 0
     (posts.take max_posts_with_comments) ch hch⟩

theorem fetch_per_post_cap_witness :
    ((flatten_comments_tree (commentsListing (wRespond 0)) "p1").take 1).length ≤ 1 :=
  (fetch_per_post_cap [wPost "p1"] 1 5 wRespond).2
    ((flatten_comments_tree (commentsListing (wRespond 0)) "p1").take 1) (by decide)

/-- Claim C8 as stated requires a delay strictly between any two
consecutive comment requests in the effect trace; the Boolean flag
records that a request has been seen with no delay after it yet. -/
def sleepBetweenReqs : Bool → List FEvent → Bool
  | _, [] => true
  | _, FEvent.csleep :: rest => sleepBetweenReqs false rest
  | pending, FEvent.creq _ :: rest => !pending && sleepBetweenReqs true rest

/- Counterexample input to C8: the first post's request fails with 404
(a skip), so the second post's request follows it with no delay. -/

def cexRespond : Nat → CResp
  | 0 => { status := 404, isList := false, elems := [] }
  | _ => { status := 200, isList := true, elems := [.nil, .nil] }

/-- Counterexample to C8 as stated: with a skipped first post, the
trace is [creq 0, creq 1, csleep], and no delay separates the two
requests (the code only sleeps on the success path, not after skips). -/
theorem fetch_delay_after_skip_cex :
    sleepBetweenReqs false (fetchTrace cexRespond 0 [wPost "p1", wPost "p2"]) = false := by
  decide

/-- A successfully processed response: HTTP 200 and the well-formed
two-part list shape.  These are exactly the posts whose handling ends
with the politeness delay. -/
def successResp (r : CResp) : Bool :=
  r.status == 200 && (r.isList && Nat.ble 2 r.elems.length)

/-- After a request whose response was successfully processed, a delay
must occur before any later request; the flag records a pending delay
obligation. -/
def sleepAfterSuccess (respond : Nat → CResp) : Bool → List FEvent → Bool
  | _, [] => true
  | _, FEvent.csleep :: rest => sleepAfterSuccess respond false rest
  | pending, FEvent.creq i :: rest =>
    !pending && sleepAfterSuccess respond (successResp (respond i)) rest

theorem fetchTrace_sleepAfterSuccess (respond : Nat → CResp) :
    ∀ (idx : Nat) (l : List PostRec),
      sleepAfterSuccess respond false (fetchTrace respond idx l) = true
  | _, [] => rfl
  | idx, post :: rest => by
    rw [fetchTrace]
    by_cases h0 : (post.id.getD "") = ""
    · rw [if_pos h0]
      exact fetchTrace_sleepAfterSuccess respond (idx + 1) rest
    · rw [if_neg h0]
      by_cases h429 : (respond idx).status = 429
      · rw [if_pos h429]
        rfl
      · rw [if_neg h429]
        by_cases h200 : (respond idx).status ≠ 200
        · rw [if_pos h200]
          have hb : ((respond idx).status == 200) = false := beq_eq_false_iff_ne.mpr h200
          have hsucc : successResp (respond idx) = false := by
            simp [successResp, hb]
          rw [sleepAfterSuccess, hsucc]
          simpa using fetchTrace_sleepAfterSuccess respond (idx + 1) rest
        · rw [if_neg h200]
          by_cases hshape : !(respond idx).isList || (respond idx).elems.length < 2
          · rw [if_pos hshape]
            have hor : (respond idx).isList = false ∨ (respond idx).elems.length < 2 := by
              simpa using hshape
            have hsucc : successResp (respond idx) = false := by
              rcases hor with hl | hlen
              · simp [successResp, hl]
              · have hc : Nat.ble 2 (respond idx).elems.length = false := by
                  apply Bool.eq_false_iff.mpr
                  intro hble
                  exact absurd (Nat.le_of_ble_eq_true hble) (by omega)
                simp [successResp, hc]
            rw [sleepAfterSuccess, hsucc]
            simpa using fetchTrace_sleepAfterSuccess respond (idx + 1) rest
          · rw [if_neg hshape]
            rw [sleepAfterSuccess, sleepAfterSuccess]
            simpa using fetchTrace_sleepAfterSuccess respond (idx + 1) rest

/-- C8 amended: a politeness delay separates each successfully
processed post from any later request (it is the success path that
ends with `time.sleep(1)`); after a skipped post (missing id, non-200
non-429 response, malformed shape) the next request follows with no
delay, and nothing is required after the terminal post. -/
theorem fetch_sleeps_after_success (posts : List PostRec)
    (max_posts_with_comments : Nat) (respond : Nat → CResp) :
    sleepAfterSuccess respond false
      (fetchTrace respond 0 (posts.take max_posts_with_comments)) = true :=
  fetchTrace_sleepAfterSuccess respond 0 (posts.take max_posts_with_comments)

/- ==================== Text normalizers ======================
   Embeds the two `clean_text` implementations, of
   src/analysis/sentiment.py and src/etl/transform_clean.py, at the
   level of character lists.  The regex substitutions are implemented
   directly: per-character class substitutions as maps, the whitespace
   collapse as a run-collapsing scan, and the URL removals as a
   left-to-right scan removing each leftmost match.  Character classes
   are given by ASCII code points. -/

/-- Python's `\s` (ASCII range): space, tab, newline, carriage return,
vertical tab, form feed. -/
def pyWs (c : Char) : Bool :=
  c.toNat = 32 || c.toNat = 9 || c.toNat = 10 || c.toNat = 13 || c.toNat = 11 || c.toNat = 12

/-- The class `[a-z0-9]`. -/
def isLowerAlnum (c : Char) : Bool :=
  (97 ≤ c.toNat && c.toNat ≤ 122) || (48 ≤ c.toNat && c.toNat ≤ 57)

/-- The class `[a-zA-Z0-9]`. -/
def isAnyAlnum (c : Char) : Bool :=
  isLowerAlnum c || (65 ≤ c.toNat && c.toNat ≤ 90)

/-- The markdown class of sentiment.py, codes 42 95 96 62 35 126 91 93
40 41: asterisk, underscore, backquote, greater-than, hash, tilde, the
square brackets and the parentheses. -/
def isMarkdown (c : Char) : Bool :=
  c.toNat = 42 || c.toNat = 95 || c.toNat = 96 || c.toNat = 62 || c.toNat = 35 ||
  c.toNat = 126 || c.toNat = 91 || c.toNat = 93 || c.toNat = 40 || c.toNat = 41

/-- Embeds Python `str.strip()`: whitespace dropped from both ends. -/
def pyStrip (l : List Char) : List Char :=
  ((l.dropWhile pyWs).reverse.dropWhile pyWs).reverse

/-- Embeds `re.sub(r"\s+", " ", ·)`: each maximal whitespace run
becomes a single space.  The flag records that the previous character
was whitespace, so the run's further characters are dropped. -/
def collapseWs : Bool → List Char → List Char
  | _, [] => []
  | prevWs, c :: cs =>
    if pyWs c then
      (if prevWs then collapseWs true cs else ' ' :: collapseWs true cs)
    else c :: collapseWs false cs

/-- One attempted match of `https?://\S+` at the head of the input:
the scheme prefix (the optional `s?` is greedy, and the two possible
prefixes exclude each other), then a non-empty greedy run of
non-whitespace; returns the input remaining after the match. -/
def urlMatch (l : List Char) : Option (List Char) :=
  if "https://".toList.isPrefixOf l then
    match l.drop 8 with
    | [] => none
    | c :: cs => if pyWs c then none else some ((c :: cs).dropWhile (fun x => !pyWs x))
  else if "http://".toList.isPrefixOf l then
    match l.drop 7 with
    | [] => none
    | c :: cs => if pyWs c then none else some ((c :: cs).dropWhile (fun x => !pyWs x))
  else none

def subURLFuel : Nat → List Char → List Char
  | 0, l => l
  | _ + 1, [] => []
  | fuel + 1, c :: cs =>
    match urlMatch (c :: cs) with
    | some rest => subURLFuel fuel rest
    | none => c :: subURLFuel fuel cs

/-- Embeds `re.sub(r'https?://\S+', '', ·)`: scan left to right
removing each leftmost match.  Every step consumes at least one
character, so fuel `l.length` suffices. -/
def subURL (l : List Char) : List Char := subURLFuel l.length l

/-- One attempted match of `http\S+|www\.\S+` at the head of the
input: the alternation tries `http` first; the two literal prefixes
exclude each other.  Case-sensitive. -/
def urlMatch2 (l : List Char) : Option (List Char) :=
  if "http".toList.isPrefixOf l then
    match l.drop 4 with
    | [] => none
    | c :: cs => if pyWs c then none else some ((c :: cs).dropWhile (fun x => !pyWs x))
  else if "www.".toList.isPrefixOf l then
    match l.drop 4 with
    | [] => none
    | c :: cs => if pyWs c then none else some ((c :: cs).dropWhile (fun x => !pyWs x))
  else none

def subURL2Fuel : Nat → List Char → List Char
  | 0, l => l
  | _ + 1, [] => []
  | fuel + 1, c :: cs =>
    match urlMatch2 (c :: cs) with
    | some rest => subURL2Fuel fuel rest
    | none => c :: subURL2Fuel fuel cs

/-- Embeds `URL_PATTERN.sub("", ·)` of transform_clean.py. -/
def subURL2 (l : List Char) : List Char := subURL2Fuel l.length l

namespace Sentiment

/-- Embeds `clean_text` of src/analysis/sentiment.py on a character
list, in source order: lowercase; remove `https?://\S+`; markdown
characters to spaces; characters outside `[a-z0-9\s]` to spaces;
collapse whitespace runs; strip. -/
def clean_list (l : List Char) : List Char :=
  pyStrip (collapseWs false
    (((subURL (l.map pyLower)).map (fun c => if isMarkdown c then ' ' else c)).map
      (fun c => if isLowerAlnum c || pyWs c then c else ' ')))

/-- Embeds `clean_text` on strings (the non-`str` input branch, which
returns "", is modelled at the caller; see `cleanValue`). -/
def clean_text (s : String) : String := String.mk (clean_list s.toList)

end Sentiment

namespace TransformClean

/-- Embeds `clean_text` of src/etl/transform_clean.py on a character
list, in source order: strip; remove `http\S+|www\.\S+`
(case-sensitively, before lowercasing); lowercase; characters outside
`[a-zA-Z0-9\s]` to spaces; collapse whitespace runs; strip. -/
def clean_list (l : List Char) : List Char :=
  pyStrip (collapseWs false
    (((subURL2 (pyStrip l)).map pyLower).map
      (fun c => if isAnyAlnum c || pyWs c then c else ' ')))

def clean_text (s : String) : String := String.mk (clean_list s.toList)

end TransformClean

theorem toList_mk (l : List Char) : (String.mk l).toList = l := rfl

/- Facts about the normalizers' outputs: only lowercase alphanumerics
and single interior spaces survive, with no leading or trailing space.
These support the idempotence (C4) and URL-stripping (C6) claims. -/

/-- Characters a normalizer's output may contain: `[a-z0-9]` or space. -/
def okChar (c : Char) : Bool := isLowerAlnum c || c == ' '

/-- Adjacent characters are not both whitespace. -/
def noPair (a b : Char) : Prop := pyWs a = false ∨ pyWs b = false

/-- The head (if any) is not whitespace. -/
def headNotWs (l : List Char) : Prop := ∀ c ∈ l.head?, pyWs c = false

/-- The last element (if any) is not whitespace. -/
def lastNotWs (l : List Char) : Prop := ∀ c ∈ l.getLast?, pyWs c = false

theorem toNat_pyLower (c : Char) :
    (pyLower c).toNat = if 65 ≤ c.toNat ∧ c.toNat ≤ 90 then c.toNat + 32 else c.toNat := by
  rw [pyLower]
  split
  next h =>
    have hb : 65 ≤ c.toNat ∧ c.toNat ≤ 90 := by simpa using h
    rw [if_pos hb, Char.ofNat, dif_pos (Or.inl (by omega : c.toNat + 32 < 0xd800))]
    rfl
  next h =>
    have hb : ¬(65 ≤ c.toNat ∧ c.toNat ≤ 90) := by simpa using h
    rw [if_neg hb]

theorem okChar_toNat {c : Char} (h : okChar c = true) :
    (97 ≤ c.toNat ∧ c.toNat ≤ 122) ∨ (48 ≤ c.toNat ∧ c.toNat ≤ 57) ∨ c.toNat = 32 := by
  rcases Bool.or_eq_true_iff.mp h with h1 | h2
  · simp only [isLowerAlnum, Bool.or_eq_true, Bool.and_eq_true, decide_eq_true_eq] at h1
    tauto
  · right; right
    rw [beq_iff_eq.mp h2]
    rfl

theorem mem_pyStrip {l : List Char} {c : Char} (h : c ∈ pyStrip l) : c ∈ l := by
  rw [pyStrip, List.mem_reverse] at h
  have h2 := (List.dropWhile_sublist pyWs).subset h
  rw [List.mem_reverse] at h2
  exact (List.dropWhile_sublist pyWs).subset h2

theorem chars_stage4 (l : List Char) :
    ∀ c ∈ l.map (fun c => if isLowerAlnum c || pyWs c then c else ' '),
      (isLowerAlnum c || pyWs c) = true := by
  intro c hc
  rcases List.mem_map.mp hc with ⟨a, _, rfl⟩
  by_cases h : (isLowerAlnum a || pyWs a) = true
  · rw [if_pos h]
    exact h
  · rw [if_neg h]
    decide

theorem chars_stage4' (l : List Char) :
    ∀ c ∈ (l.map pyLower).map (fun c => if isAnyAlnum c || pyWs c then c else ' '),
      (isLowerAlnum c || pyWs c) = true := by
  intro c hc
  rcases List.mem_map.mp hc with ⟨b, hb, rfl⟩
  rcases List.mem_map.mp hb with ⟨a, _, rfl⟩
  by_cases h : (isAnyAlnum (pyLower a) || pyWs (pyLower a)) = true
  · rw [if_pos h]
    rcases Bool.or_eq_true_iff.mp h with h1 | h2
    · refine Bool.or_eq_true_iff.mpr (Or.inl ?_)
      have ht := toNat_pyLower a
      simp only [isAnyAlnum, isLowerAlnum, Bool.or_eq_true, Bool.and_eq_true,
        decide_eq_true_eq] at h1 ⊢
      split at ht <;> omega
    · exact Bool.or_eq_true_iff.mpr (Or.inr h2)
  · rw [if_neg h]
    decide

theorem chars_collapseWs : ∀ (b : Bool) (l : List Char),
    (∀ c ∈ l, (isLowerAlnum c || pyWs c) = true) →
    ∀ c ∈ collapseWs b l, okChar c = true
  | _, [], _, c, h => absurd h (by rw [collapseWs]; simp)
  | b, x :: xs, hall, c, h => by
    rw [collapseWs] at h
    by_cases hw : pyWs x = true
    · rw [if_pos hw] at h
      have htail := chars_collapseWs true xs (fun d hd => hall d (by simp [hd]))
      cases b with
      | true => exact htail c (by simpa using h)
      | false =>
        rcases List.mem_cons.mp (by simpa using h) with rfl | hmem
        · decide
        · exact htail c hmem
    · rw [if_neg hw] at h
      rcases List.mem_cons.mp h with rfl | hmem
      · have hx := hall c (by simp)
        rcases Bool.or_eq_true_iff.mp hx with h1 | h2
        · exact Bool.or_eq_true_iff.mpr (Or.inl h1)
        · exact absurd h2 (by simp [hw])
      · exact chars_collapseWs false xs (fun d hd => hall d (by simp [hd])) c hmem

theorem headNotWs_collapseWs_true : ∀ (l : List Char), headNotWs (collapseWs true l)
  | [] => by
    intro c hc
    rw [collapseWs] at hc
    simp at hc
  | x :: xs => by
    rw [collapseWs]
    by_cases hw : pyWs x = true
    · rw [if_pos hw]
      exact headNotWs_collapseWs_true xs
    · rw [if_neg hw]
      intro c hc
      simp only [if_pos rfl, List.head?_cons, Option.mem_def, Option.some.injEq] at hc
      rw [← hc]
      simpa using hw

theorem chain_collapseWs : ∀ (b : Bool) (l : List Char), List.Chain' noPair (collapseWs b l)
  | _, [] => by
    rw [collapseWs]
    exact List.chain'_nil
  | b, x :: xs => by
    rw [collapseWs]
    by_cases hw : pyWs x = true
    · rw [if_pos hw]
      cases b with
      | true => exact chain_collapseWs true xs
      | false =>
        refine List.chain'_cons'.mpr ⟨?_, chain_collapseWs true xs⟩
        intro d hd
        exact Or.inr (headNotWs_collapseWs_true xs d hd)
    · rw [if_neg hw]
      refine List.chain'_cons'.mpr ⟨?_, chain_collapseWs false xs⟩
      intro d _
      exact Or.inl (by simpa using hw)

theorem headNotWs_dropWhile (l : List Char) : headNotWs (l.dropWhile pyWs) := by
  induction l with
  | nil =>
    intro c hc
    simp at hc
  | cons x xs ih =>
    rw [List.dropWhile_cons]
    split
    · exact ih
    next h =>
      intro c hc
      simp only [List.head?_cons, Option.mem_def, Option.some.injEq] at hc
      rw [← hc]
      simpa using h

theorem chain_pyStrip {l : List Char} (h : List.Chain' noPair l) :
    List.Chain' noPair (pyStrip l) := by
  have hrev : ∀ {m : List Char}, List.Chain' noPair m → List.Chain' noPair m.reverse := by
    intro m hm
    rw [List.chain'_reverse]
    exact hm.imp (fun a b hab => hab.symm)
  rw [pyStrip]
  exact hrev ((hrev (h.suffix (List.dropWhile_suffix pyWs))).suffix
    (List.dropWhile_suffix pyWs))

theorem headNotWs_pyStrip (l : List Char) : headNotWs (pyStrip l) := by
  rw [pyStrip]
  intro c hc
  rw [List.head?_reverse] at hc
  rcases hs : (l.dropWhile pyWs).reverse.dropWhile pyWs with _ | ⟨d, ds⟩
  · rw [hs] at hc
    simp at hc
  · obtain ⟨t, ht⟩ := List.dropWhile_suffix (l := (l.dropWhile pyWs).reverse) pyWs
    have hne : (l.dropWhile pyWs).reverse.dropWhile pyWs ≠ [] := by
      rw [hs]
      simp
    have hgl := List.getLast?_append_of_ne_nil t hne
    rw [ht, List.getLast?_reverse] at hgl
    rw [← hgl] at hc
    exact headNotWs_dropWhile l c hc

theorem lastNotWs_pyStrip (l : List Char) : lastNotWs (pyStrip l) := by
  rw [pyStrip]
  intro c hc
  rw [List.getLast?_reverse] at hc
  exact headNotWs_dropWhile _ c hc

/- Identity of each cleaning stage on canonical text (all characters
in `[a-z0-9 ]`, no two adjacent spaces, no leading/trailing space). -/

theorem map_eq_self {f : Char → Char} : ∀ {l : List Char}, (∀ c ∈ l, f c = c) → l.map f = l
  | [], _ => rfl
  | x :: xs, h => by
    rw [List.map_cons, h x (by simp), map_eq_self (fun c hc => h c (by simp [hc]))]

theorem pyLower_eq_self {c : Char} (h : okChar c = true) : pyLower c = c := by
  rw [pyLower, if_neg]
  have := okChar_toNat h
  simp only [Bool.and_eq_true, decide_eq_true_eq, not_and, not_le]
  omega

theorem markdown_eq_self {c : Char} (h : okChar c = true) :
    (if isMarkdown c then ' ' else c) = c := by
  rw [if_neg]
  have := okChar_toNat h
  simp only [isMarkdown, Bool.or_eq_true, decide_eq_true_eq]
  omega

theorem stage4_eq_self {c : Char} (h : okChar c = true) :
    (if isLowerAlnum c || pyWs c then c else ' ') = c := by
  rw [if_pos]
  rcases Bool.or_eq_true_iff.mp h with h1 | h2
  · exact Bool.or_eq_true_iff.mpr (Or.inl h1)
  · refine Bool.or_eq_true_iff.mpr (Or.inr ?_)
    rw [beq_iff_eq.mp h2]
    decide

theorem urlMatch_eq_none {l : List Char} (h : ∀ c ∈ l, c.toNat ≠ 58) : urlMatch l = none := by
  have hA : ¬ ("https://".toList.isPrefixOf l = true) := fun hp =>
    h ':' ((List.isPrefixOf_iff_prefix.mp hp).subset (by decide)) rfl
  have hB : ¬ ("http://".toList.isPrefixOf l = true) := fun hp =>
    h ':' ((List.isPrefixOf_iff_prefix.mp hp).subset (by decide)) rfl
  rw [urlMatch, if_neg hA, if_neg hB]

theorem subURLFuel_eq_self : ∀ (fuel : Nat) (l : List Char),
    (∀ c ∈ l, c.toNat ≠ 58) → subURLFuel fuel l = l
  | 0, _, _ => rfl
  | _ + 1, [], _ => rfl
  | fuel + 1, x :: xs, h => by
    rw [subURLFuel, urlMatch_eq_none h]
    show x :: subURLFuel fuel xs = x :: xs
    rw [subURLFuel_eq_self fuel xs (fun c hc => h c (by simp [hc]))]

theorem subURL_eq_self {l : List Char} (h : ∀ c ∈ l, okChar c = true) : subURL l = l :=
  subURLFuel_eq_self l.length l (fun c hc => by
    have := okChar_toNat (h c hc)
    omega)

theorem collapseWs_eq_self : ∀ (l : List Char),
    (∀ c ∈ l, okChar c = true) → List.Chain' noPair l → collapseWs false l = l
  | [], _, _ => rfl
  | x :: xs, hok, hch => by
    rw [collapseWs]
    by_cases hw : pyWs x = true
    · rw [if_pos hw]
      have hx : x = ' ' := by
        rcases Bool.or_eq_true_iff.mp (hok x (by simp)) with h1 | h2
        · exfalso
          have hcode := okChar_toNat (hok x (by simp))
          simp only [isLowerAlnum, Bool.or_eq_true, Bool.and_eq_true, decide_eq_true_eq] at h1
          simp only [pyWs, Bool.or_eq_true, decide_eq_true_eq] at hw
          omega
        · exact beq_iff_eq.mp h2
      have hxs : collapseWs true xs = collapseWs false xs := by
        cases xs with
        | nil => rfl
        | cons y ys =>
          have hy : pyWs y = false := by
            rcases (List.chain'_cons'.mp hch).1 y (by simp) with h | h
            · exact absurd hw (by rw [h]; simp)
            · exact h
          rw [collapseWs, collapseWs, if_neg (by simp [hy]), if_neg (by simp [hy])]
      rw [hxs, collapseWs_eq_self xs (fun c hc => hok c (by simp [hc])) hch.tail, hx]
      simp
    · rw [if_neg hw, collapseWs_eq_self xs (fun c hc => hok c (by simp [hc])) hch.tail]

theorem dropWhile_eq_self_of_headNotWs {l : List Char} (h : headNotWs l) :
    l.dropWhile pyWs = l := by
  cases l with
  | nil => rfl
  | cons x xs =>
    rw [List.dropWhile_cons, if_neg]
    simp only [Bool.not_eq_true]
    exact h x (by simp)

theorem pyStrip_eq_self {l : List Char} (h1 : headNotWs l) (h2 : lastNotWs l) :
    pyStrip l = l := by
  have h3 : headNotWs l.reverse := by
    intro c hc
    rw [List.head?_reverse] at hc
    exact h2 c hc
  rw [pyStrip, dropWhile_eq_self_of_headNotWs h1, dropWhile_eq_self_of_headNotWs h3,
    List.reverse_reverse]

/- The canonical-shape facts for the two normalizers' outputs. -/

theorem chars_sentiment_clean (l : List Char) :
    ∀ c ∈ Sentiment.clean_list l, okChar c = true := by
  intro c hc
  rw [Sentiment.clean_list] at hc
  exact chars_collapseWs false _ (chars_stage4 _) c (mem_pyStrip hc)

theorem chars_transform_clean (l : List Char) :
    ∀ c ∈ TransformClean.clean_list l, okChar c = true := by
  intro c hc
  rw [TransformClean.clean_list] at hc
  exact chars_collapseWs false _ (chars_stage4' _) c (mem_pyStrip hc)

theorem chain_sentiment_clean (l : List Char) :
    List.Chain' noPair (Sentiment.clean_list l) := by
  rw [Sentiment.clean_list]
  exact chain_pyStrip (chain_collapseWs false _)

/-- Identity of the whole sentiment normalizer on its own output
shape. -/
theorem sentiment_clean_list_eq_self {l : List Char}
    (hok : ∀ c ∈ l, okChar c = true) (hch : List.Chain' noPair l)
    (hh : headNotWs l) (hl : lastNotWs l) :
    Sentiment.clean_list l = l := by
  rw [Sentiment.clean_list]
  rw [map_eq_self (fun c hc => pyLower_eq_self (hok c hc))]
  rw [subURL_eq_self hok]
  rw [map_eq_self (fun c hc => markdown_eq_self (hok c hc))]
  rw [map_eq_self (fun c hc => stage4_eq_self (hok c hc))]
  rw [collapseWs_eq_self l hok hch]
  exact pyStrip_eq_self hh hl

/-- C4 (amended): the sentiment annotator's clean_text is idempotent;
the transform step's clean_text is not (see the counterexample: its
URL pattern is case-sensitive and applied before lowercasing, so one
pass can manufacture a fresh match for the next pass). -/
theorem sentiment_clean_text_idempotent (x : String) :
    Sentiment.clean_text (Sentiment.clean_text x) = Sentiment.clean_text x := by
  rw [Sentiment.clean_text, Sentiment.clean_text, toList_mk]
  exact congrArg String.mk (sentiment_clean_list_eq_self
    (chars_sentiment_clean x.toList) (chain_sentiment_clean x.toList)
    (headNotWs_pyStrip _) (lastNotWs_pyStrip _))

/-- Counterexample to C4 as stated: the transform step's clean_text
maps "HTTPX" to "httpx" but maps "httpx" to "", so it is not
idempotent. -/
theorem transform_clean_text_not_idempotent_cex :
    ¬ (TransformClean.clean_text (TransformClean.clean_text "HTTPX")
        = TransformClean.clean_text "HTTPX") := by decide

/-- A URL-like substring of the claimed scheme form surviving in `s`:
"http" immediately followed by a non-whitespace character. -/
def schemeSurvives (s : String) : Bool :=
  s.toList.any (fun c => !pyWs c && containsSubAux ("http".toList ++ [c]) s.toList)

/-- Counterexample to C6 as stated: a bare scheme word immediately
followed by other text survives both normalizers ("httpx" survives the
sentiment normalizer, whose pattern needs "://", and "HTTPX" survives
the transform normalizer, whose pattern is case-sensitive and runs
before lowercasing). -/
theorem clean_text_scheme_survives_cex :
    schemeSurvives (Sentiment.clean_text "httpx") = true ∧
    schemeSurvives (TransformClean.clean_text "HTTPX") = true := by decide

theorem not_infix_of_chars {l : List Char} (hok : ∀ c ∈ l, okChar c = true) :
    ¬ ("://".toList <:+: l) ∧ ¬ ("www.".toList <:+: l) := by
  constructor
  · intro h
    exact absurd (hok ':' (h.subset (by decide))) (by decide)
  · intro h
    exact absurd (hok '.' (h.subset (by decide))) (by decide)

/-- C6 (amended): both normalizers strip every URL-like substring that
carries its separator: no occurrence of "://" and none of "www."
survives into either normalizer's output (every colon, slash and dot
is removed); a bare scheme word without its separator can survive (see
the counterexample). -/
theorem clean_text_strips_url_separators (x : String) :
    (¬ ("://".toList <:+: (Sentiment.clean_text x).toList) ∧
     ¬ ("www.".toList <:+: (Sentiment.clean_text x).toList)) ∧
    (¬ ("://".toList <:+: (TransformClean.clean_text x).toList) ∧
     ¬ ("www.".toList <:+: (TransformClean.clean_text x).toList)) :=
  ⟨not_infix_of_chars (chars_sentiment_clean x.toList),
   not_infix_of_chars (chars_transform_clean x.toList)⟩

/- ==================== Sentiment annotator ====================
   Embeds the module-level annotation loop of src/analysis/sentiment.py.
   A record (one JSON object of the input array) is modelled as a
   key-to-value map; the external polarity scorer is a parameter
   returning the four scores (their numeric values are opaque to the
   claims, so Rat stands in for the library's floats).  Each loop
   iteration annotates one record independently. -/

inductive JVal where
  | null
  | str (s : String)
  | num (q : Rat)
  | bool (b : Bool)
deriving DecidableEq, Repr

/-- A record: a Python dict keyed by strings. -/
def RecMap : Type := String → Option JVal

/-- Python truthiness of a JSON value. -/
def truthy : JVal → Bool
  | .null => false
  | .str s => s != ""
  | .num q => q != 0
  | .bool b => b

/-- Python `a or b` on a dict lookup: a missing or falsy value falls
through to the right operand. -/
def pyOr (o : Option JVal) (k : JVal) : JVal :=
  match o with
  | some v => if truthy v then v else k
  | none => k

/-- The value selected by `entry.get("body") or entry.get("comment") or ""`. -/
def selectText (entry : RecMap) : JVal :=
  pyOr (entry "body") (pyOr (entry "comment") (JVal.str ""))

/-- `clean_text` applied to an arbitrary value: the non-`str` guard of
clean_text returns "". -/
def cleanValue : JVal → String
  | .str s => Sentiment.clean_text s
  | _ => ""

/-- The four polarity scores of the external scorer. -/
structure SScore where
  neg : Rat
  neu : Rat
  pos : Rat
  compound : Rat

/-- Dict update `r[k] = v`. -/
def setKey (r : RecMap) (k : String) (v : JVal) : RecMap :=
  fun q => if q = k then some v else r q

/-- One iteration of the annotation loop: select the text field, clean
it, score the cleaned text, and set the five derived fields on the
record, in source order. -/
def annotate (scorer : String → SScore) (entry : RecMap) : RecMap :=
  setKey (setKey (setKey (setKey (setKey entry
    "clean_text" (.str (cleanValue (selectText entry))))
    "sentiment_neg" (.num (scorer (cleanValue (selectText entry))).neg))
    "sentiment_neu" (.num (scorer (cleanValue (selectText entry))).neu))
    "sentiment_pos" (.num (scorer (cleanValue (selectText entry))).pos))
    "sentiment_compound" (.num (scorer (cleanValue (selectText entry))).compound)

/-- C9: the annotator adds or sets exactly the five derived fields (the
cleaned text and the four scores of the cleaned text, as returned by
the external scorer) and leaves the value of every other key of the
record unchanged. -/
theorem annotate_frame (scorer : String → SScore) (entry : RecMap) (k : String)
    (hk : k ≠ "clean_text" ∧ k ≠ "sentiment_neg" ∧ k ≠ "sentiment_neu" ∧
      k ≠ "sentiment_pos" ∧ k ≠ "sentiment_compound") :
    annotate scorer entry k = entry k ∧
    annotate scorer entry "clean_text"
        = some (.str (cleanValue (selectText entry))) ∧
    annotate scorer entry "sentiment_neg"
        = some (.num (scorer (cleanValue (selectText entry))).neg) ∧
    annotate scorer entry "sentiment_neu"
        = some (.num (scorer (cleanValue (selectText entry))).neu) ∧
    annotate scorer entry "sentiment_pos"
        = some (.num (scorer (cleanValue (selectText entry))).pos) ∧
    annotate scorer entry "sentiment_compound"
        = some (.num (scorer (cleanValue (selectText entry))).compound) := by
  obtain ⟨h1, h2, h3, h4, h5⟩ := hk
  refine ⟨?_, ?_, ?_, ?_, ?_, ?_⟩ <;>
    simp [annotate, setKey, h1, h2, h3, h4, h5]

def wEntry : RecMap := fun k =>
  if k = "body" then some (.str "Good stuff") else
  if k = "score" then some (.num 7) else none

def wScorer : String → SScore := fun _ => ⟨0, 1, 0, 0⟩

theorem annotate_frame_witness :
    annotate wScorer wEntry "score" = wEntry "score" ∧
    annotate wScorer wEntry "clean_text"
        = some (.str (cleanValue (selectText wEntry))) ∧
    annotate wScorer wEntry "sentiment_neg"
        = some (.num (wScorer (cleanValue (selectText wEntry))).neg) ∧
    annotate wScorer wEntry "sentiment_neu"
        = some (.num (wScorer (cleanValue (selectText wEntry))).neu) ∧
    annotate wScorer wEntry "sentiment_pos"
        = some (.num (wScorer (cleanValue (selectText wEntry))).pos) ∧
    annotate wScorer wEntry "sentiment_compound"
        = some (.num (wScorer (cleanValue (selectText wEntry))).compound) :=
  annotate_frame wScorer wEntry "score" (by decide)

/-- C10: a record whose "body" field is null or the empty string and
whose "comment" field is a non-empty string is annotated from the
"comment" field: the cleaned text and all four scores are computed
from it. -/
theorem annotate_falls_back_to_comment (scorer : String → SScore) (entry : RecMap)
    (c : String)
    (hb : entry "body" = some JVal.null ∨ entry "body" = some (JVal.str ""))
    (hc : entry "comment" = some (JVal.str c)) (hcne : c ≠ "") :
    annotate scorer entry "clean_text" = some (.str (Sentiment.clean_text c)) ∧
    annotate scorer entry "sentiment_neg"
        = some (.num (scorer (Sentiment.clean_text c)).neg) ∧
    annotate scorer entry "sentiment_neu"
        = some (.num (scorer (Sentiment.clean_text c)).neu) ∧
    annotate scorer entry "sentiment_pos"
        = some (.num (scorer (Sentiment.clean_text c)).pos) ∧
    annotate scorer entry "sentiment_compound"
        = some (.num (scorer (Sentiment.clean_text c)).compound) := by
  have hsel : selectText entry = JVal.str c := by
    rw [selectText]
    have hcomment : pyOr (entry "comment") (JVal.str "") = JVal.str c := by
      rw [hc, pyOr, if_pos]
      simpa [truthy] using hcne
    rcases hb with hb | hb <;>
      rw [hb, pyOr, if_neg (by simp [truthy]), hcomment]
  have hclean : cleanValue (selectText entry) = Sentiment.clean_text c := by
    rw [hsel, cleanValue]
  refine ⟨?_, ?_, ?_, ?_, ?_⟩ <;>
    simp [annotate, setKey, hclean]

def wEntry2 : RecMap := fun k =>
  if k = "body" then some JVal.null else
  if k = "comment" then some (.str "Great news") else none

theorem annotate_falls_back_to_comment_witness :
    annotate wScorer wEntry2 "clean_text"
        = some (.str (Sentiment.clean_text "Great news")) ∧
    annotate wScorer wEntry2 "sentiment_neg"
        = some (.num (wScorer (Sentiment.clean_text "Great news")).neg) ∧
    annotate wScorer wEntry2 "sentiment_neu"
        = some (.num (wScorer (Sentiment.clean_text "Great news")).neu) ∧
    annotate wScorer wEntry2 "sentiment_pos"
        = some (.num (wScorer (Sentiment.clean_text "Great news")).pos) ∧
    annotate wScorer wEntry2 "sentiment_compound"
        = some (.num (wScorer (Sentiment.clean_text "Great news")).compound) :=
  annotate_falls_back_to_comment wScorer wEntry2 "Great news"
    (Or.inl (by decide)) (by decide) (by decide)
